import Mathlib

set_option maxHeartbeats 1600000

/-! Verification of the GovernmentGPT Hybrid Search & Rank Fusion Engine
    (src/backend/hybrid_search_service.py).

    The Python service is embedded shallowly: SQL queries over the read-only
    document corpus become pure list operations over a `List Doc` given in
    row order, Python floats become exact rationals, Python's stable `sorted`
    becomes a stable insertion sort, and insertion-ordered dicts become
    association lists.  External collaborators (the SQLite FTS5 index, the
    sentence-transformers embedding model, the Claude HTTP API) are modelled
    as explicit parameters, exactly as the spec's collaborator contracts
    describe them. -/

/-! ### Python string primitives (ASCII semantics, as exercised by the service) -/

def pyLower (s : String) : String := String.mk (s.toList.map Char.toLower)

def pyUpper (s : String) : String := String.mk (s.toList.map Char.toUpper)

def splitWsAux : List Char → List Char → List String
  | [], acc => if acc.isEmpty then [] else [String.mk acc.reverse]
  | c :: rest, acc =>
      if c.isWhitespace then
        (if acc.isEmpty then [] else [String.mk acc.reverse]) ++ splitWsAux rest []
      else splitWsAux rest (c :: acc)

/-- Python `str.split()` with no argument: split on whitespace runs, dropping
    empty fragments. -/
def pySplit (s : String) : List String := splitWsAux s.toList []

def isPrefixList : List Char → List Char → Bool
  | [], _ => true
  | _ :: _, [] => false
  | a :: as, b :: bs => a == b && isPrefixList as bs

def subAux : List Char → List Char → Bool
  | n, [] => n.isEmpty
  | n, c :: t => isPrefixList n (c :: t) || subAux n t

/-- Python's `needle in hay` substring test. -/
def strContains (hay needle : String) : Bool := subAux needle.toList hay.toList

theorem isPrefixList_self (l : List Char) : isPrefixList l l = true := by
  induction l with
  | nil => rfl
  | cons c t ih => simp [isPrefixList, ih]

theorem strContains_self (s : String) : strContains s s = true := by
  unfold strContains
  cases h : s.toList with
  | nil => simp [subAux]
  | cons c t => simp [subAux, isPrefixList_self]

/-! ### The document record

    `_doc_to_dict` / `_row_to_dict` produce a dict with fixed keys; the
    `relevance_score` key is absent until the fusion engine adds it, hence an
    `Option` field.  `last_action_date` is modelled as an integer timestamp
    (the service only ever orders by it). -/

structure Doc where
  id : String
  identifier : String
  title : String
  summary : String
  full_text : String
  doc_metadata : String
  last_action_date : Int
  relevance_score : Option ℚ
  deriving DecidableEq, Repr

/-- Adding the `relevance_score` key to a copy of the dict
    (`doc = item['doc'].copy(); doc['relevance_score'] = ...`). -/
def setScore (d : Doc) (s : ℚ) : Doc :=
  ⟨d.id, d.identifier, d.title, d.summary, d.full_text, d.doc_metadata,
   d.last_action_date, some s⟩

/-- Python `doc.get('relevance_score', 0)`. -/
def relevanceOf (d : Doc) : ℚ := d.relevance_score.getD 0

theorem setScore_id (d : Doc) (s : ℚ) : (setScore d s).id = d.id := rfl

theorem relevanceOf_setScore (d : Doc) (s : ℚ) : relevanceOf (setScore d s) = s := rfl

/-! ### Stable descending sort

    Python's `sorted(xs, key=key, reverse=True)` is a stable sort placing
    larger keys first; equal keys keep their original relative order.  The
    insertion sort below has exactly that extensional behaviour. -/

def insertByDesc {α : Type} {β : Type} [LinearOrder β] (key : α → β) (x : α) :
    List α → List α
  | [] => [x]
  | y :: ys => if key x < key y then y :: insertByDesc key x ys else x :: y :: ys

def insSortByDesc {α : Type} {β : Type} [LinearOrder β] (key : α → β) :
    List α → List α
  | [] => []
  | x :: xs => insertByDesc key x (insSortByDesc key xs)

theorem perm_insertByDesc {α β : Type} [LinearOrder β] (key : α → β) (x : α)
    (l : List α) : (insertByDesc key x l).Perm (x :: l) := by
  induction l with
  | nil => simp [insertByDesc]
  | cons y ys ih =>
    unfold insertByDesc
    by_cases h : key x < key y
    · simp only [if_pos h]
      exact (ih.cons y).trans (List.Perm.swap x y ys)
    · simp [if_neg h]

theorem perm_insSortByDesc {α β : Type} [LinearOrder β] (key : α → β)
    (l : List α) : (insSortByDesc key l).Perm l := by
  induction l with
  | nil => simp [insSortByDesc]
  | cons x xs ih =>
    exact (perm_insertByDesc key x (insSortByDesc key xs)).trans (ih.cons x)

theorem sorted_insertByDesc {α β : Type} [LinearOrder β] (key : α → β) (x : α)
    (l : List α) (h : l.Pairwise (fun a b => key b ≤ key a)) :
    (insertByDesc key x l).Pairwise (fun a b => key b ≤ key a) := by
  induction l with
  | nil => simp [insertByDesc]
  | cons y ys ih =>
    rw [List.pairwise_cons] at h
    unfold insertByDesc
    by_cases hxy : key x < key y
    · simp only [if_pos hxy]
      rw [List.pairwise_cons]
      refine ⟨?_, ih h.2⟩
      intro z hz
      rcases List.mem_cons.1 ((perm_insertByDesc key x ys).mem_iff.1 hz) with rfl | hz'
      · exact le_of_lt hxy
      · exact h.1 z hz'
    · simp only [if_neg hxy]
      rw [List.pairwise_cons]
      refine ⟨?_, List.pairwise_cons.2 h⟩
      intro z hz
      rcases List.mem_cons.1 hz with rfl | hz'
      · exact not_lt.mp hxy
      · exact le_trans (h.1 z hz') (not_lt.mp hxy)

theorem sorted_insSortByDesc {α β : Type} [LinearOrder β] (key : α → β)
    (l : List α) : (insSortByDesc key l).Pairwise (fun a b => key b ≤ key a) := by
  induction l with
  | nil => simp [insSortByDesc]
  | cons x xs ih => exact sorted_insertByDesc key x _ ih

/-- Stability, phrased relationally: if the input is pairwise related by a
    secondary relation `sec`, then the sorted output is pairwise either
    strictly descending in key, or key-equal and still related by `sec`. -/
theorem pairwise_insertByDesc {α β : Type} [LinearOrder β] (key : α → β)
    (sec : α → α → Prop) (x : α) (l : List α)
    (hsort : l.Pairwise (fun a b => key b ≤ key a))
    (hp : l.Pairwise (fun a b => key b < key a ∨ (key a = key b ∧ sec a b)))
    (hx : ∀ z ∈ l, sec x z) :
    (insertByDesc key x l).Pairwise
      (fun a b => key b < key a ∨ (key a = key b ∧ sec a b)) := by
  induction l with
  | nil => simp [insertByDesc]
  | cons y ys ih =>
    rw [List.pairwise_cons] at hsort hp
    unfold insertByDesc
    by_cases hxy : key x < key y
    · simp only [if_pos hxy]
      rw [List.pairwise_cons]
      refine ⟨?_, ih hsort.2 hp.2 (fun z hz => hx z (List.mem_cons_of_mem y hz))⟩
      intro z hz
      rcases List.mem_cons.1 ((perm_insertByDesc key x ys).mem_iff.1 hz) with rfl | hz'
      · exact Or.inl hxy
      · exact hp.1 z hz'
    · simp only [if_neg hxy]
      rw [List.pairwise_cons]
      constructor
      · intro z hz
        rcases List.mem_cons.1 hz with rfl | hz'
        · rcases lt_or_eq_of_le (not_lt.mp hxy) with h | h
          · exact Or.inl h
          · exact Or.inr ⟨h.symm, hx z (List.mem_cons_self z ys)⟩
        · have hzy : key z ≤ key y := hsort.1 z hz'
          have hzx : key z ≤ key x := le_trans hzy (not_lt.mp hxy)
          rcases lt_or_eq_of_le hzx with h | h
          · exact Or.inl h
          · exact Or.inr ⟨h.symm, hx z (List.mem_cons_of_mem y hz')⟩
      · exact List.pairwise_cons.2 hp

theorem pairwise_insSortByDesc {α β : Type} [LinearOrder β] (key : α → β)
    (sec : α → α → Prop) (l : List α) (hp : l.Pairwise sec) :
    (insSortByDesc key l).Pairwise
      (fun a b => key b < key a ∨ (key a = key b ∧ sec a b)) := by
  induction l with
  | nil => simp [insSortByDesc]
  | cons x xs ih =>
    rw [List.pairwise_cons] at hp
    exact pairwise_insertByDesc key sec x _ (sorted_insSortByDesc key _)
      (ih hp.2)
      (fun z hz => hp.1 z ((perm_insSortByDesc key xs).mem_iff.1 hz))

/-! ### Weighted Reciprocal Rank Fusion (`_weighted_rank_fusion`)

    `doc_scores` is Python's insertion-ordered dict, modelled as an
    association list of `(doc id, first-seen doc, running RRF score)`.
    The `'sources'` bookkeeping list of the Python dict entry plays no role
    in any computation and is omitted. -/

def updateScore : List (String × Doc × ℚ) → String → Doc → ℚ →
    List (String × Doc × ℚ)
  | [], i, d, s => [(i, d, s)]
  | (j, d0, s0) :: rest, i, d, s =>
      if j = i then (j, d0, s0 + s) :: rest
      else (j, d0, s0) :: updateScore rest i d s

/-- The `for rank, (doc, score) in enumerate(results)` loop of one strategy:
    each occurrence at 0-indexed `rank` adds `weight * (1 / (k + rank + 1))`
    to the document's running aggregate.  The strategy-local score in the
    pair is ignored by the fusion, exactly as in the source. -/
def addResults (k : ℕ) (w : ℚ) : ℕ → List (Doc × ℚ) → List (String × Doc × ℚ) →
    List (String × Doc × ℚ)
  | _, [], m => m
  | r, e :: rest, m =>
      addResults k w (r + 1) rest (updateScore m e.1.id e.1 (w * (1 / ((k : ℚ) + r + 1))))

def buildDocScores (k : ℕ) (lists : List (List (Doc × ℚ) × ℚ)) :
    List (String × Doc × ℚ) :=
  lists.foldl (fun m p => addResults k p.2 0 p.1 m) []

/-- Specification-side formula: the contribution of a single strategy list to
    document `i`, summing `weight * (1 / (k + rank + 1))` over every
    occurrence of `i` at 0-indexed `rank`. -/
def stratAggr (k : ℕ) (w : ℚ) (i : String) : ℕ → List (Doc × ℚ) → ℚ
  | _, [] => 0
  | r, e :: rest =>
      (if e.1.id = i then w * (1 / ((k : ℚ) + r + 1)) else 0) + stratAggr k w i (r + 1) rest

/-- Specification-side formula: the full RRF aggregate of document `i`. -/
def rrfAggregate (k : ℕ) (lists : List (List (Doc × ℚ) × ℚ)) (i : String) : ℚ :=
  (lists.map (fun p => stratAggr k p.2 i 0 p.1)).sum

/-- The fixed domain-salience watch list (`important_terms`). -/
def importantTerms : List String := ["infrastructure", "beautiful", "jobs", "investment"]

/-- The phrase/topic bonus of `_weighted_rank_fusion`, computed from the
    lowercased current query and the lowercased candidate title. -/
def phraseBonus (q : String) (d : Doc) : ℚ :=
  (if (pySplit (pyLower q)).length > 2 then
    (if strContains (pyLower d.title) (pyLower q) then 2
     else if (pySplit (pyLower q)).any
            (fun w => strContains (pyLower d.title) w && decide (3 < w.length)) then
       (((pySplit (pyLower q)).filter
          (fun w => strContains (pyLower d.title) w && decide (3 < w.length))).length : ℚ) * (1/2)
     else 0)
   else 0)
  + ((importantTerms.filter
      (fun t => strContains (pyLower q) t && strContains (pyLower d.title) t)).length : ℚ)

/-- Claim-side phrase/topic bonus, written from the spec's wording:
    for queries of more than 2 tokens, +2.0 on a verbatim (case-insensitive)
    title match, otherwise +0.5 per query token longer than 3 characters that
    appears in the title; always +1.0 per watch-list term present in both
    query and title. -/
def claim_bonus (q : String) (d : Doc) : ℚ :=
  (if (pySplit (pyLower q)).length > 2 then
    (if strContains (pyLower d.title) (pyLower q) then 2
     else (((pySplit (pyLower q)).filter
            (fun w => decide (3 < w.length) && strContains (pyLower d.title) w)).length : ℚ) * (1/2))
   else 0)
  + ((importantTerms.filter
      (fun t => strContains (pyLower q) t && strContains (pyLower d.title) t)).length : ℚ)

theorem phraseBonus_eq_claim_bonus (q : String) (d : Doc) :
    phraseBonus q d = claim_bonus q d := by
  unfold phraseBonus claim_bonus
  congr 1
  by_cases h2 : (pySplit (pyLower q)).length > 2
  · simp only [if_pos h2]
    by_cases hv : strContains (pyLower d.title) (pyLower q) = true
    · simp [hv]
    · simp only [if_neg hv]
      by_cases ha : (pySplit (pyLower q)).any
          (fun w => strContains (pyLower d.title) w && decide (3 < w.length)) = true
      · simp only [if_pos ha]
        have hf : (pySplit (pyLower q)).filter
            (fun w => strContains (pyLower d.title) w && decide (3 < w.length))
            = (pySplit (pyLower q)).filter
            (fun w => decide (3 < w.length) && strContains (pyLower d.title) w) := by
          apply List.filter_congr
          intro w _
          rw [Bool.and_comm]
        rw [hf]
      · simp only [if_neg ha]
        simp only [Bool.not_eq_true] at ha
        rw [List.any_eq_false] at ha
        have hf : ((pySplit (pyLower q)).filter
            (fun w => decide (3 < w.length) && strContains (pyLower d.title) w)) = [] := by
          apply List.filter_eq_nil_iff.2
          intro w hw
          have h1 := ha w hw
          simpa [Bool.and_comm] using h1
        rw [hf]
        simp
  · simp [if_neg h2]

/-- The entries of `doc_scores` after the second (bonus) loop: the kept doc
    paired with `final_score = score + phrase_bonus`. -/
def fusedEntries (q : String) (k : ℕ) (lists : List (List (Doc × ℚ) × ℚ)) :
    List (Doc × ℚ) :=
  (buildDocScores k lists).map (fun p => (p.2.1, p.2.2 + phraseBonus q p.2.1))

/-- `_weighted_rank_fusion`: build the RRF aggregates, add the phrase bonus,
    stable-sort descending by final score, truncate to `limit`, and emit a
    copy of each kept doc with its `relevance_score` added. -/
def weighted_rank_fusion (q : String) (lists : List (List (Doc × ℚ) × ℚ))
    (limit : ℕ) (k : ℕ) : List Doc :=
  ((insSortByDesc (fun e => e.2) (fusedEntries q k lists)).take limit).map
    (fun e => setScore e.1 e.2)

/-- `hybrid_search`: fuse the three strategies' outputs with the fixed
    weights 0.5 / 0.3 / 0.2 and smoothing constant k = 60. -/
def hybrid_search (q : String) (fts sem meta : List (Doc × ℚ)) (limit : ℕ) :
    List Doc :=
  weighted_rank_fusion q [(fts, 1/2), (sem, 3/10), (meta, 1/5)] limit 60

/-! ### Invariants of the `doc_scores` association list -/

/-- Total score booked under key `i` (equals the entry's score once keys are
    known to be distinct). -/
def scoreOf (m : List (String × Doc × ℚ)) (i : String) : ℚ :=
  (m.map (fun p => if p.1 = i then p.2.2 else 0)).sum

theorem scoreOf_nil (i : String) : scoreOf [] i = 0 := rfl

theorem scoreOf_updateScore (m : List (String × Doc × ℚ)) (i : String) (d : Doc)
    (s : ℚ) (j : String) :
    scoreOf (updateScore m i d s) j = scoreOf m j + (if i = j then s else 0) := by
  induction m with
  | nil => simp [updateScore, scoreOf]
  | cons p rest ih =>
    obtain ⟨a, d0, s0⟩ := p
    unfold updateScore
    by_cases hai : a = i
    · subst hai
      simp only [if_pos rfl, scoreOf, List.map_cons, List.sum_cons]
      by_cases haj : a = j
      · simp [haj]; ring
      · simp [haj]
    · simp only [if_neg hai, scoreOf, List.map_cons, List.sum_cons]
      have := ih
      unfold scoreOf at this
      rw [this]
      ring

theorem scoreOf_addResults (k : ℕ) (w : ℚ) (r : ℕ) (l : List (Doc × ℚ))
    (m : List (String × Doc × ℚ)) (j : String) :
    scoreOf (addResults k w r l m) j = scoreOf m j + stratAggr k w j r l := by
  induction l generalizing r m with
  | nil => simp [addResults, stratAggr]
  | cons e rest ih =>
    unfold addResults stratAggr
    rw [ih, scoreOf_updateScore]
    ring

theorem scoreOf_buildDocScores (k : ℕ) (lists : List (List (Doc × ℚ) × ℚ))
    (j : String) : scoreOf (buildDocScores k lists) j = rrfAggregate k lists j := by
  have main : ∀ (ls : List (List (Doc × ℚ) × ℚ)) (m : List (String × Doc × ℚ)),
      scoreOf (ls.foldl (fun m p => addResults k p.2 0 p.1 m) m) j
        = scoreOf m j + (ls.map (fun p => stratAggr k p.2 j 0 p.1)).sum := by
    intro ls
    induction ls with
    | nil => simp
    | cons p rest ih =>
      intro m
      simp only [List.foldl_cons, List.map_cons, List.sum_cons]
      rw [ih, scoreOf_addResults]
      ring
  have := main lists []
  unfold buildDocScores rrfAggregate
  rw [this, scoreOf_nil, zero_add]

/-- Key/doc shape preservation: any property of (key, kept doc) that holds for
    all existing entries and for the inserted pair also holds after an update. -/
theorem updateScore_presQ (Q : String → Doc → Prop) (m : List (String × Doc × ℚ))
    (i : String) (d : Doc) (s : ℚ) (hm : ∀ p ∈ m, Q p.1 p.2.1) (hd : Q i d) :
    ∀ p ∈ updateScore m i d s, Q p.1 p.2.1 := by
  induction m with
  | nil =>
    intro p hp
    simp only [updateScore, List.mem_singleton] at hp
    subst hp; exact hd
  | cons e rest ih =>
    obtain ⟨a, d0, s0⟩ := e
    intro p hp
    unfold updateScore at hp
    by_cases hai : a = i
    · simp only [if_pos hai] at hp
      rcases List.mem_cons.1 hp with heq | hp'
      · subst heq
        exact hm (a, d0, s0) (List.mem_cons_self _ _)
      · exact hm p (List.mem_cons_of_mem _ hp')
    · simp only [if_neg hai] at hp
      rcases List.mem_cons.1 hp with heq | hp'
      · subst heq
        exact hm (a, d0, s0) (List.mem_cons_self _ _)
      · exact ih (fun p' hp' => hm p' (List.mem_cons_of_mem _ hp')) p hp'

theorem addResults_presQ (Q : String → Doc → Prop) (k : ℕ) (w : ℚ) (r : ℕ)
    (l : List (Doc × ℚ)) (m : List (String × Doc × ℚ))
    (hm : ∀ p ∈ m, Q p.1 p.2.1) (hl : ∀ e ∈ l, Q e.1.id e.1) :
    ∀ p ∈ addResults k w r l m, Q p.1 p.2.1 := by
  induction l generalizing r m with
  | nil => exact fun p hp => hm p hp
  | cons e rest ih =>
    intro p hp
    unfold addResults at hp
    exact ih (r + 1)
      (updateScore m e.1.id e.1 (w * (1 / ((k : ℚ) + r + 1))))
      (updateScore_presQ Q m e.1.id e.1 _ hm (hl e (List.mem_cons_self _ _)))
      (fun e' he' => hl e' (List.mem_cons_of_mem _ he'))
      p hp

theorem buildDocScores_presQ (Q : String → Doc → Prop) (k : ℕ)
    (lists : List (List (Doc × ℚ) × ℚ))
    (h : ∀ pr ∈ lists, ∀ e ∈ pr.1, Q e.1.id e.1) :
    ∀ p ∈ buildDocScores k lists, Q p.1 p.2.1 := by
  have main : ∀ (ls : List (List (Doc × ℚ) × ℚ)) (m : List (String × Doc × ℚ)),
      (∀ p ∈ m, Q p.1 p.2.1) → (∀ pr ∈ ls, ∀ e ∈ pr.1, Q e.1.id e.1) →
      ∀ p ∈ ls.foldl (fun m p => addResults k p.2 0 p.1 m) m, Q p.1 p.2.1 := by
    intro ls
    induction ls with
    | nil => intro m hm _ p hp; exact hm p hp
    | cons pr rest ih =>
      intro m hm hls p hp
      simp only [List.foldl_cons] at hp
      exact ih _
        (addResults_presQ Q k pr.2 0 pr.1 m hm (hls pr (List.mem_cons_self _ _)))
        (fun pr' hpr' => hls pr' (List.mem_cons_of_mem _ hpr')) p hp
  exact main lists [] (by intro p hp; cases hp) h

/-- Keys of the association list after an update. -/
theorem keys_updateScore (m : List (String × Doc × ℚ)) (i : String) (d : Doc)
    (s : ℚ) :
    (updateScore m i d s).map (fun p => p.1) = m.map (fun p => p.1)
      ∨ ((updateScore m i d s).map (fun p => p.1) = m.map (fun p => p.1) ++ [i]
          ∧ i ∉ m.map (fun p => p.1)) := by
  induction m with
  | nil => right; constructor <;> simp [updateScore]
  | cons e rest ih =>
    obtain ⟨a, d0, s0⟩ := e
    unfold updateScore
    by_cases hai : a = i
    · left; simp [if_pos hai]
    · simp only [if_neg hai, List.map_cons]
      rcases ih with h | ⟨h1, h2⟩
      · left; rw [h]
      · right
        constructor
        · rw [h1]; simp
        · simp only [List.map_cons, List.mem_cons]
          rintro (h | h)
          · exact hai h.symm
          · exact h2 h

theorem nodup_keys_updateScore (m : List (String × Doc × ℚ)) (i : String)
    (d : Doc) (s : ℚ) (h : (m.map (fun p => p.1)).Nodup) :
    ((updateScore m i d s).map (fun p => p.1)).Nodup := by
  rcases keys_updateScore m i d s with hk | ⟨hk, hni⟩
  · rw [hk]; exact h
  · rw [hk, List.nodup_append]
    refine ⟨h, List.nodup_singleton i, ?_⟩
    intro a ha hb
    rw [List.mem_singleton] at hb
    exact hni (hb ▸ ha)

theorem nodup_keys_addResults (k : ℕ) (w : ℚ) (r : ℕ) (l : List (Doc × ℚ))
    (m : List (String × Doc × ℚ)) (h : (m.map (fun p => p.1)).Nodup) :
    ((addResults k w r l m).map (fun p => p.1)).Nodup := by
  induction l generalizing r m with
  | nil => exact h
  | cons e rest ih =>
    unfold addResults
    exact ih (r + 1) _ (nodup_keys_updateScore m e.1.id e.1 _ h)

theorem nodup_keys_buildDocScores (k : ℕ) (lists : List (List (Doc × ℚ) × ℚ)) :
    ((buildDocScores k lists).map (fun p => p.1)).Nodup := by
  have main : ∀ (ls : List (List (Doc × ℚ) × ℚ)) (m : List (String × Doc × ℚ)),
      (m.map (fun p => p.1)).Nodup →
      ((ls.foldl (fun m p => addResults k p.2 0 p.1 m) m).map (fun p => p.1)).Nodup := by
    intro ls
    induction ls with
    | nil => intro m hm; exact hm
    | cons pr rest ih =>
      intro m hm
      simp only [List.foldl_cons]
      exact ih _ (nodup_keys_addResults k pr.2 0 pr.1 m hm)
  exact main lists [] (by simp)

theorem scoreOf_not_mem (m : List (String × Doc × ℚ)) (i : String)
    (h : i ∉ m.map (fun p => p.1)) : scoreOf m i = 0 := by
  induction m with
  | nil => rfl
  | cons e rest ih =>
    simp only [List.map_cons, List.mem_cons] at h
    push_neg at h
    unfold scoreOf
    simp only [List.map_cons, List.sum_cons]
    rw [if_neg (fun hh => h.1 hh.symm)]
    have := ih h.2
    unfold scoreOf at this
    rw [this]
    ring

theorem scoreOf_eq_of_mem (m : List (String × Doc × ℚ))
    (hnd : (m.map (fun p => p.1)).Nodup) (p : String × Doc × ℚ) (hp : p ∈ m) :
    scoreOf m p.1 = p.2.2 := by
  induction m with
  | nil => cases hp
  | cons e rest ih =>
    simp only [List.map_cons, List.nodup_cons] at hnd
    rcases List.mem_cons.1 hp with rfl | hp'
    · unfold scoreOf
      simp only [List.map_cons, List.sum_cons]
      rw [show ((rest.map (fun q => if q.1 = p.1 then q.2.2 else 0)).sum) = scoreOf rest p.1 from rfl,
        scoreOf_not_mem rest p.1 hnd.1]
      simp
    · unfold scoreOf
      simp only [List.map_cons, List.sum_cons]
      have hne : e.1 ≠ p.1 := by
        intro hh
        exact hnd.1 (hh ▸ List.mem_map_of_mem (fun q => q.1) hp')
      rw [if_neg hne]
      have := ih hnd.2 hp'
      unfold scoreOf at this
      rw [this]
      ring

/-- Master membership lemma for `doc_scores`: every entry's key is its doc's
    id, its doc occurs in one of the input lists, and its running score is
    exactly the spec-side RRF aggregate. -/
theorem mem_buildDocScores (k : ℕ) (lists : List (List (Doc × ℚ) × ℚ))
    (p : String × Doc × ℚ) (hp : p ∈ buildDocScores k lists) :
    p.2.1.id = p.1 ∧ (∃ pr ∈ lists, ∃ s : ℚ, (p.2.1, s) ∈ pr.1)
      ∧ p.2.2 = rrfAggregate k lists p.1 := by
  refine ⟨?_, ?_, ?_⟩
  · exact (buildDocScores_presQ (fun i d => d.id = i) k lists
      (fun _ _ e _ => rfl) p hp)
  · exact (buildDocScores_presQ (fun _ d => ∃ pr ∈ lists, ∃ s : ℚ, (d, s) ∈ pr.1)
      k lists (fun pr hpr e he => ⟨pr, hpr, e.2, by simpa using he⟩) p hp)
  · rw [← scoreOf_buildDocScores k lists p.1]
    exact (scoreOf_eq_of_mem _ (nodup_keys_buildDocScores k lists) p hp).symm

/-- Every fused output doc is a copy of a `doc_scores` doc with its final
    score (RRF aggregate + phrase bonus) installed as `relevance_score`. -/
theorem mem_weighted_rank_fusion (q : String) (lists : List (List (Doc × ℚ) × ℚ))
    (limit k : ℕ) (d : Doc) (hd : d ∈ weighted_rank_fusion q lists limit k) :
    ∃ p ∈ buildDocScores k lists, d = setScore p.2.1 (p.2.2 + phraseBonus q p.2.1) := by
  unfold weighted_rank_fusion at hd
  rcases List.mem_map.1 hd with ⟨e, he, rfl⟩
  have he2 : e ∈ insSortByDesc (fun e => e.2) (fusedEntries q k lists) :=
    (List.take_sublist limit _).mem he
  have he3 : e ∈ fusedEntries q k lists :=
    (perm_insSortByDesc (fun e => e.2) _).mem_iff.1 he2
  rcases List.mem_map.1 he3 with ⟨p, hp, rfl⟩
  exact ⟨p, hp, rfl⟩

theorem nodup_ids_fusedEntries (q : String) (k : ℕ)
    (lists : List (List (Doc × ℚ) × ℚ)) :
    ((fusedEntries q k lists).map (fun e => e.1.id)).Nodup := by
  have h1 : (fusedEntries q k lists).map (fun e => e.1.id)
      = (buildDocScores k lists).map (fun p => p.2.1.id) := by
    unfold fusedEntries
    rw [List.map_map]
    rfl
  have h2 : (buildDocScores k lists).map (fun p => p.2.1.id)
      = (buildDocScores k lists).map (fun p => p.1) :=
    List.map_congr_left (fun p hp => (mem_buildDocScores k lists p hp).1)
  rw [h1, h2]
  exact nodup_keys_buildDocScores k lists

/-- C1: for every search request, the fused result list contains no duplicate
    document ids — each id appears at most once, even when the same document
    is returned by two or three of the strategies.  (`_weighted_rank_fusion`
    keys its accumulator by document id, so the emitted list is one entry per
    id.) -/
theorem claim_C1_no_duplicate_ids (q : String) (lists : List (List (Doc × ℚ) × ℚ))
    (limit k : ℕ) :
    ((weighted_rank_fusion q lists limit k).map Doc.id).Nodup := by
  unfold weighted_rank_fusion
  rw [List.map_map]
  have hco : (Doc.id ∘ fun e : Doc × ℚ => setScore e.1 e.2)
      = fun e : Doc × ℚ => e.1.id := rfl
  rw [hco]
  have hperm := (perm_insSortByDesc (fun e : Doc × ℚ => e.2)
    (fusedEntries q k lists)).map (fun e : Doc × ℚ => e.1.id)
  have hnodup : ((insSortByDesc (fun e : Doc × ℚ => e.2)
      (fusedEntries q k lists)).map (fun e : Doc × ℚ => e.1.id)).Nodup :=
    hperm.nodup_iff.2 (nodup_ids_fusedEntries q k lists)
  exact hnodup.sublist ((List.take_sublist limit _).map (fun e : Doc × ℚ => e.1.id))

/-- C2: the fused result list is truncated to the caller's limit and its
    final scores are non-increasing along adjacent pairs. -/
theorem claim_C2_sorted_and_truncated (q : String)
    (lists : List (List (Doc × ℚ) × ℚ)) (limit k : ℕ) :
    (weighted_rank_fusion q lists limit k).length ≤ limit
    ∧ List.Chain' (fun a b => relevanceOf b ≤ relevanceOf a)
        (weighted_rank_fusion q lists limit k) := by
  constructor
  · unfold weighted_rank_fusion
    rw [List.length_map, List.length_take]
    exact min_le_left _ _
  · unfold weighted_rank_fusion
    have hsorted : (insSortByDesc (fun e : Doc × ℚ => e.2)
        (fusedEntries q k lists)).Pairwise (fun a b => b.2 ≤ a.2) :=
      sorted_insSortByDesc _ _
    have htake := hsorted.sublist (List.take_sublist limit _)
    have hmap : (((insSortByDesc (fun e : Doc × ℚ => e.2)
        (fusedEntries q k lists)).take limit).map
        (fun e : Doc × ℚ => setScore e.1 e.2)).Pairwise
        (fun a b => relevanceOf b ≤ relevanceOf a) := by
      refine htake.map _ ?_
      intro a b hab
      rw [relevanceOf_setScore, relevanceOf_setScore]
      exact hab
    exact hmap.chain'

/-- C3: with smoothing constant k = 60 and the default weights 0.5 / 0.3 / 0.2
    of `hybrid_search`, each document's running RRF aggregate equals the sum,
    over every (document, 0-indexed rank) occurrence in a strategy's list, of
    `weight * (1 / (k + rank + 1))` — the weights act as independent
    multipliers. -/
theorem claim_C3_rrf_formula (fts sem meta : List (Doc × ℚ))
    (p : String × Doc × ℚ)
    (hp : p ∈ buildDocScores 60 [(fts, 1/2), (sem, 3/10), (meta, 1/5)]) :
    p.2.2 = stratAggr 60 (1/2) p.1 0 fts + stratAggr 60 (3/10) p.1 0 sem
      + stratAggr 60 (1/5) p.1 0 meta := by
  have h := (mem_buildDocScores 60 _ p hp).2.2
  rw [h]
  unfold rrfAggregate
  simp only [List.map_cons, List.map_nil, List.sum_cons, List.sum_nil]
  ring

/-- C4: every fused result's final score is its RRF aggregate plus the
    phrase/topic bonus computed case-insensitively from the current query:
    +2.0 on a verbatim title match for queries of more than 2 tokens,
    otherwise +0.5 per query token longer than 3 characters appearing in the
    title, plus +1.0 per watch-list term present in both query and title;
    queries of 2 or fewer tokens get only the watch-list part. -/
theorem claim_C4_phrase_bonus (q : String) (lists : List (List (Doc × ℚ) × ℚ))
    (limit k : ℕ) (d : Doc) (hd : d ∈ weighted_rank_fusion q lists limit k) :
    (∃ d0 : Doc, d = setScore d0 (rrfAggregate k lists d0.id + claim_bonus q d0))
    ∧ (∀ d1 : Doc, (pySplit (pyLower q)).length ≤ 2 →
        claim_bonus q d1 = ((importantTerms.filter
          (fun t => strContains (pyLower q) t
            && strContains (pyLower d1.title) t)).length : ℚ)) := by
  constructor
  · rcases mem_weighted_rank_fusion q lists limit k d hd with ⟨p, hp, rfl⟩
    rcases mem_buildDocScores k lists p hp with ⟨hid, _, hsc⟩
    refine ⟨p.2.1, ?_⟩
    rw [hsc, hid, phraseBonus_eq_claim_bonus]
  · intro d1 hle
    unfold claim_bonus
    rw [if_neg (by omega), zero_add]

/-- C10: the fusion engine never mutates its inputs — it is a pure function,
    and each entry of the returned list is a copy of a document record drawn
    from one of the three strategy lists with a single added
    `relevance_score` field equal to that document's final aggregate score. -/
theorem claim_C10_fusion_emits_copies (q : String)
    (lists : List (List (Doc × ℚ) × ℚ)) (limit k : ℕ) (d : Doc)
    (hd : d ∈ weighted_rank_fusion q lists limit k) :
    ∃ d0 : Doc, (∃ pr ∈ lists, ∃ s : ℚ, (d0, s) ∈ pr.1)
      ∧ d = setScore d0 (rrfAggregate k lists d0.id + phraseBonus q d0) := by
  rcases mem_weighted_rank_fusion q lists limit k d hd with ⟨p, hp, rfl⟩
  rcases mem_buildDocScores k lists p hp with ⟨hid, hprov, hsc⟩
  exact ⟨p.2.1, hprov, by rw [hsc, hid]⟩

/-! ### Metadata search strategy (`_metadata_search` and its extractors) -/

/-- `\w` for ASCII: letters, digits, underscore. -/
def wordChar (c : Char) : Bool := c.isAlphanum || c == '_'

def stripPre : List Char → List Char → Option (List Char)
  | [], cs => some cs
  | _ :: _, [] => none
  | p :: ps, c :: cs => if c.toLower == p then stripPre ps cs else none

/-- One attempt of the regex `\b<PRE>-?\s*(\d+)` (IGNORECASE) at the current
    position: match the letters of `pre` case-insensitively, an optional
    dash, any whitespace, then one or more digits (the captured group). -/
def tryMatchId (pre : List Char) (cs : List Char) : Option (String × List Char) :=
  match stripPre pre cs with
  | none => none
  | some cs1 =>
    let cs2 := match cs1 with
      | '-' :: t => t
      | t => t
    let cs3 := cs2.dropWhile Char.isWhitespace
    let ds := cs3.takeWhile Char.isDigit
    let rest := cs3.dropWhile Char.isDigit
    if ds.isEmpty then none else some (String.mk ds, rest)

/-- Left-to-right, non-overlapping `re.findall` scan.  `prevWord` tracks
    whether the previous character was a word character (for `\b`); the fuel
    bounds the recursion and is always sufficient at `length + 1`. -/
def scanIds (pre : List Char) : ℕ → Bool → List Char → List String
  | 0, _, _ => []
  | _ + 1, _, [] => []
  | fuel + 1, prevWord, c :: rest =>
      if prevWord then scanIds pre fuel (wordChar c) rest
      else
        match tryMatchId pre (c :: rest) with
        | some (num, rest2) => num :: scanIds pre fuel true rest2
        | none => scanIds pre fuel (wordChar c) rest

/-- `_extract_identifiers`: the HR, S and EO patterns in that order, each
    rendered as `PREFIX-digits`. -/
def extract_identifiers (q : String) : List String :=
  ((scanIds ['h', 'r'] (q.toList.length + 1) false q.toList).map (fun n => "HR-" ++ n))
  ++ ((scanIds ['s'] (q.toList.length + 1) false q.toList).map (fun n => "S-" ++ n))
  ++ ((scanIds ['e', 'o'] (q.toList.length + 1) false q.toList).map (fun n => "EO-" ++ n))

def headIsUpper (w : String) : Bool :=
  match w.toList with
  | [] => false
  | c :: _ => c.isUpper

/-- `_extract_potential_sponsors`: capitalized words longer than 2 characters;
    when the following word is also capitalized, the two-word form is emitted
    first. -/
def sponsorsAux : List String → List String
  | [] => []
  | w :: rest =>
      (if headIsUpper w && decide (2 < w.length) then
        (match rest with
         | w2 :: _ => if headIsUpper w2 then [w ++ " " ++ w2, w] else [w]
         | [] => [w])
       else []) ++ sponsorsAux rest

def extract_potential_sponsors (q : String) : List String :=
  sponsorsAux (pySplit q)

/-- SQLAlchemy `ilike('%pat%')` / SQLite `LIKE` (both case-insensitive for
    ASCII): case-insensitive substring containment. -/
def ilikeContains (field pat : String) : Bool :=
  strContains (pyLower field) (pyLower pat)

/-- The identifier pass: for each extracted pattern, every corpus document
    whose identifier contains it, at score 1.0, in corpus (row) order. -/
def metadata_id_results (q : String) (corpus : List Doc) : List (Doc × ℚ) :=
  ((extract_identifiers q).map (fun p =>
    (corpus.filter (fun d => ilikeContains d.identifier p)).map
      (fun d => (d, (1 : ℚ))))).flatten

/-- The sponsor pass: `doc_metadata LIKE '%"term"%'`, at score 0.8. -/
def metadata_sponsor_results (q : String) (corpus : List Doc) : List (Doc × ℚ) :=
  ((extract_potential_sponsors q).map (fun t =>
    (corpus.filter (fun d => ilikeContains d.doc_metadata ("\"" ++ t ++ "\""))).map
      (fun d => (d, (8/10 : ℚ))))).flatten

/-- The `seen_ids` de-duplication loop: keep the first occurrence of each
    document id. -/
def dedupAux (seen : List String) : List (Doc × ℚ) → List (Doc × ℚ)
  | [] => []
  | e :: rest =>
      if seen.contains e.1.id then dedupAux seen rest
      else e :: dedupAux (e.1.id :: seen) rest

/-- The de-duplicated candidate list of `_metadata_search`, before the final
    `[:limit]` truncation. -/
def metadata_candidates (q : String) (corpus : List Doc) : List (Doc × ℚ) :=
  dedupAux [] (metadata_id_results q corpus ++ metadata_sponsor_results q corpus)

/-- `_metadata_search`: identifier matches (1.0), then sponsor matches (0.8),
    de-duplicated by id keeping first occurrence, truncated to `limit`. -/
def metadata_search (q : String) (corpus : List Doc) (limit : ℕ) : List (Doc × ℚ) :=
  (metadata_candidates q corpus).take limit

theorem contains_iff_mem_str {l : List String} {a : String} :
    l.contains a = true ↔ a ∈ l := by
  simp

theorem dedupAux_subset (seen : List String) (l : List (Doc × ℚ)) :
    ∀ e ∈ dedupAux seen l, e ∈ l := by
  induction l generalizing seen with
  | nil => intro e he; cases he
  | cons a rest ih =>
    intro e he
    unfold dedupAux at he
    by_cases hs : seen.contains a.1.id
    · rw [if_pos hs] at he
      exact List.mem_cons_of_mem a (ih seen e he)
    · rw [if_neg hs] at he
      rcases List.mem_cons.1 he with rfl | he'
      · exact List.mem_cons_self _ _
      · exact List.mem_cons_of_mem a (ih _ e he')

theorem dedupAux_not_seen (seen : List String) (l : List (Doc × ℚ)) :
    ∀ e ∈ dedupAux seen l, e.1.id ∉ seen := by
  induction l generalizing seen with
  | nil => intro e he; cases he
  | cons a rest ih =>
    intro e he
    unfold dedupAux at he
    by_cases hs : seen.contains a.1.id
    · rw [if_pos hs] at he
      exact ih seen e he
    · rw [if_neg hs] at he
      rcases List.mem_cons.1 he with rfl | he'
      · intro hmem
        exact hs (contains_iff_mem_str.2 hmem)
      · intro hmem
        exact ih _ e he' (List.mem_cons_of_mem _ hmem)

/-- If every entry of the leading segment carries score `v`, then any
    de-duplicated entry whose id already occurs in the leading segment must
    carry score `v` (first occurrence wins, and it is in the leading part). -/
theorem dedupAux_score_of_first (v : ℚ) (seen : List String)
    (l1 l2 : List (Doc × ℚ)) (h1 : ∀ e ∈ l1, e.2 = v) :
    ∀ e ∈ dedupAux seen (l1 ++ l2),
      (∃ e' ∈ l1, e'.1.id = e.1.id) → e.2 = v := by
  induction l1 generalizing seen with
  | nil =>
    intro e _ hw
    rcases hw with ⟨e', he', _⟩
    cases he'
  | cons a rest ih =>
    intro e he hw
    rw [List.cons_append] at he
    unfold dedupAux at he
    by_cases hs : seen.contains a.1.id
    · rw [if_pos hs] at he
      rcases hw with ⟨e', hmem, hid⟩
      rcases List.mem_cons.1 hmem with heq | hmem2
      · exfalso
        apply dedupAux_not_seen seen _ e he
        rw [← hid, heq]
        exact contains_iff_mem_str.1 hs
      · exact ih seen (fun x hx => h1 x (List.mem_cons_of_mem _ hx)) e he ⟨e', hmem2, hid⟩
    · rw [if_neg hs] at he
      rcases List.mem_cons.1 he with heq | hrest
      · rw [heq]
        exact h1 a (List.mem_cons_self _ _)
      · rcases hw with ⟨e', hmem, hid⟩
        rcases List.mem_cons.1 hmem with heq | hmem2
        · exfalso
          apply dedupAux_not_seen (a.1.id :: seen) _ e hrest
          rw [← hid, heq]
          exact List.mem_cons_self _ _
        · exact ih _ (fun x hx => h1 x (List.mem_cons_of_mem _ hx)) e hrest ⟨e', hmem2, hid⟩

/-- Every id present in the input and not yet seen is represented in the
    de-duplicated output. -/
theorem dedupAux_covers (seen : List String) (l : List (Doc × ℚ)) :
    ∀ e ∈ l, e.1.id ∉ seen → ∃ e' ∈ dedupAux seen l, e'.1.id = e.1.id := by
  induction l generalizing seen with
  | nil => intro e he; cases he
  | cons a rest ih =>
    intro e he hns
    unfold dedupAux
    by_cases hs : seen.contains a.1.id
    · rw [if_pos hs]
      rcases List.mem_cons.1 he with heq | hrest
      · exact absurd (contains_iff_mem_str.1 hs) (heq ▸ hns)
      · exact ih seen e hrest hns
    · rw [if_neg hs]
      rcases List.mem_cons.1 he with heq | hrest
      · exact ⟨a, List.mem_cons_self _ _, by rw [heq]⟩
      · by_cases hae : e.1.id = a.1.id
        · exact ⟨a, List.mem_cons_self _ _, hae.symm⟩
        · have hnotin : e.1.id ∉ a.1.id :: seen := by
            intro hmem
            rcases List.mem_cons.1 hmem with h | h
            · exact hae h
            · exact hns h
          rcases ih _ e hrest hnotin with ⟨e2, hmem2, hid⟩
          exact ⟨e2, List.mem_cons_of_mem _ hmem2, hid⟩

theorem mem_metadata_id_results (q : String) (corpus : List Doc) (e : Doc × ℚ)
    (he : e ∈ metadata_id_results q corpus) : e.1 ∈ corpus ∧ e.2 = 1 := by
  unfold metadata_id_results at he
  rcases List.mem_flatten.1 he with ⟨l, hl, hel⟩
  rcases List.mem_map.1 hl with ⟨p, _, rfl⟩
  rcases List.mem_map.1 hel with ⟨d, hd, rfl⟩
  exact ⟨(List.mem_filter.1 hd).1, rfl⟩

theorem mem_metadata_sponsor_results (q : String) (corpus : List Doc)
    (e : Doc × ℚ) (he : e ∈ metadata_sponsor_results q corpus) :
    e.1 ∈ corpus ∧ e.2 = 8/10 := by
  unfold metadata_sponsor_results at he
  rcases List.mem_flatten.1 he with ⟨l, hl, hel⟩
  rcases List.mem_map.1 hl with ⟨t, _, rfl⟩
  rcases List.mem_map.1 hel with ⟨d, hd, rfl⟩
  exact ⟨(List.mem_filter.1 hd).1, rfl⟩

theorem metadata_id_results_intro (q : String) (corpus : List Doc) (d : Doc)
    (p : String) (hd : d ∈ corpus) (hp : p ∈ extract_identifiers q)
    (hil : ilikeContains d.identifier p = true) :
    (d, (1 : ℚ)) ∈ metadata_id_results q corpus := by
  unfold metadata_id_results
  refine List.mem_flatten.2 ⟨(corpus.filter (fun x => ilikeContains x.identifier p)).map
    (fun x => (x, (1 : ℚ))), List.mem_map.2 ⟨p, hp, rfl⟩, ?_⟩
  exact List.mem_map.2 ⟨d, List.mem_filter.2 ⟨hd, hil⟩, rfl⟩

/-- C5 (amended): every de-duplicated metadata candidate matched by an
    extracted identifier scores 1.0 (first-occurrence de-duplication keeps
    the maximum, because all 1.0 identifier matches precede all 0.8 sponsor
    matches); every candidate scores 1.0 or 0.8; a document whose identifier
    exactly equals an extracted identifier is in the candidate list at 1.0,
    but the strategy's output is that list truncated to the caller's limit,
    so only candidates within the first `limit` entries reach fusion. -/
theorem claim_C5_metadata_scoring (q : String) (corpus : List Doc) (limit : ℕ) :
    (∀ d s, (d, s) ∈ metadata_candidates q corpus →
        ((∃ p ∈ extract_identifiers q, ilikeContains d.identifier p = true) → s = 1)
        ∧ (s = 1 ∨ s = 8/10))
    ∧ ((corpus.map Doc.id).Nodup → ∀ d ∈ corpus, ∀ p ∈ extract_identifiers q,
        d.identifier = p → (d, (1 : ℚ)) ∈ metadata_candidates q corpus)
    ∧ metadata_search q corpus limit = (metadata_candidates q corpus).take limit := by
  refine ⟨?_, ?_, rfl⟩
  · intro d s hmem
    have hin : (d, s) ∈ metadata_id_results q corpus ++ metadata_sponsor_results q corpus :=
      dedupAux_subset [] _ _ hmem
    constructor
    · rintro ⟨p, hp, hil⟩
      have hdc : d ∈ corpus := by
        rcases List.mem_append.1 hin with h | h
        · exact (mem_metadata_id_results q corpus _ h).1
        · exact (mem_metadata_sponsor_results q corpus _ h).1
      have hfirst : (d, (1 : ℚ)) ∈ metadata_id_results q corpus :=
        metadata_id_results_intro q corpus d p hdc hp hil
      exact dedupAux_score_of_first 1 [] _ _
        (fun e he => (mem_metadata_id_results q corpus e he).2) (d, s) hmem
        ⟨(d, 1), hfirst, rfl⟩
    · rcases List.mem_append.1 hin with h | h
      · exact Or.inl (mem_metadata_id_results q corpus _ h).2
      · exact Or.inr (mem_metadata_sponsor_results q corpus _ h).2
  · intro hnd d hd p hp heq
    have hil : ilikeContains d.identifier p = true := by
      unfold ilikeContains
      rw [heq]
      exact strContains_self _
    have hfirst : (d, (1 : ℚ)) ∈ metadata_id_results q corpus :=
      metadata_id_results_intro q corpus d p hd hp hil
    have hin : ((d, (1 : ℚ))) ∈ metadata_id_results q corpus ++ metadata_sponsor_results q corpus :=
      List.mem_append.2 (Or.inl hfirst)
    rcases dedupAux_covers [] _ (d, 1) hin (by simp) with ⟨e', he', hid⟩
    have he'in : e' ∈ metadata_id_results q corpus ++ metadata_sponsor_results q corpus :=
      dedupAux_subset [] _ e' he'
    have he'c : e'.1 ∈ corpus := by
      rcases List.mem_append.1 he'in with h | h
      · exact (mem_metadata_id_results q corpus _ h).1
      · exact (mem_metadata_sponsor_results q corpus _ h).1
    have he'd : e'.1 = d :=
      List.inj_on_of_nodup_map hnd he'c hd hid
    have he's : e'.2 = 1 :=
      dedupAux_score_of_first 1 [] _ _
        (fun e he => (mem_metadata_id_results q corpus e he).2) e' he'
        ⟨(d, 1), hfirst, hid.symm⟩
    have : e' = (d, (1 : ℚ)) := Prod.ext he'd he's
    exact this ▸ he'

/-- Concrete corpus for the metadata-strategy counterexample: both documents
    match the extracted pattern `HR-3` as a substring, only the second is an
    exact equal, and the caller's limit is 1. -/
def dMetaA : Doc := ⟨"A", "HR-30", "", "", "", "", 0, none⟩

def dMetaB : Doc := ⟨"B", "HR-3", "", "", "", "", 0, none⟩

/-- C5 counterexample: `dMetaB.identifier` exactly equals the extracted
    identifier `HR-3`, yet `_metadata_search` with limit 1 returns only the
    earlier substring match `dMetaA`, so the exactly-matching document
    contributes nothing to fusion — the claim's "receives 1.0 prior to
    fusion" fails under the `[:limit]` truncation. -/
theorem claim_C5_counterexample :
    extract_identifiers "HR-3" = ["HR-3"]
    ∧ dMetaB.identifier = "HR-3"
    ∧ metadata_search "HR-3" [dMetaA, dMetaB] 1 = [(dMetaA, 1)] := by
  refine ⟨by decide, rfl, by decide⟩

theorem claim_C5_witness :
    (dMetaB, (1 : ℚ)) ∈ metadata_candidates "HR-3" [dMetaB] :=
  (claim_C5_metadata_scoring "HR-3" [dMetaB] 5).2.1 (by decide) dMetaB (by decide)
    "HR-3" (by decide) rfl

/-! ### Confidence scorer (`_calculate_semantic_confidence`) -/

/-- The identifier-boost loop over the top-3 results: each match adds 0.3,
    re-capped at 1.0 after every addition. -/
def confBase (q : String) (docs : List Doc) : ℚ :=
  (docs.take 3).foldl
    (fun b d => if strContains (pyUpper d.identifier) (pyUpper q) then
      min (b + 3/10) 1 else b)
    (min ((docs.length : ℚ) / 10) 1)

/-- Average relevance of the top-3 results. -/
def confAvg (docs : List Doc) : ℚ :=
  ((docs.take 3).map relevanceOf).sum / ((min docs.length 3 : ℕ) : ℚ)

/-- `_calculate_semantic_confidence`. -/
def calculate_semantic_confidence (q : String) (docs : List Doc) : ℚ :=
  if docs = [] then 0
  else min (confBase q docs + min (confAvg docs * (1/2)) (4/10)) 1

/-- Claim-side confidence, written from the claim's wording: +0.3 (capped at
    1.0) if ANY of the top-3 results contains the query as an identifier
    substring — a single boost, not one per matching result. -/
def claim_confidence (q : String) (docs : List Doc) : ℚ :=
  if docs = [] then 0
  else
    min ((if (docs.take 3).any (fun d => strContains (pyUpper d.identifier) (pyUpper q)) then
          min (min ((docs.length : ℚ) / 10) 1 + 3/10) 1
        else min ((docs.length : ℚ) / 10) 1)
      + min (confAvg docs * (1/2)) (4/10)) 1

theorem conf_foldl_formula (q : String) (l : List Doc) (b : ℚ) (hb : b ≤ 1) :
    l.foldl (fun b d => if strContains (pyUpper d.identifier) (pyUpper q) then
        min (b + 3/10) 1 else b) b
      = min (b + (3/10) * ((l.filter
          (fun d => strContains (pyUpper d.identifier) (pyUpper q))).length : ℚ)) 1 := by
  induction l generalizing b with
  | nil =>
    simp only [List.foldl_nil, List.filter_nil, List.length_nil, Nat.cast_zero,
      mul_zero, add_zero]
    exact (min_eq_left hb).symm
  | cons d t ih =>
    simp only [List.foldl_cons, List.filter_cons]
    by_cases hm : strContains (pyUpper d.identifier) (pyUpper q) = true
    · simp only [hm, if_true, List.length_cons, Nat.cast_add, Nat.cast_one]
      rw [ih (min (b + 3/10) 1) (min_le_right _ _)]
      have hct : (0 : ℚ) ≤ ((t.filter
          (fun d => strContains (pyUpper d.identifier) (pyUpper q))).length : ℚ) :=
        Nat.cast_nonneg _
      by_cases hble : b + 3/10 ≤ 1
      · rw [min_eq_left hble]
        congr 1
        ring
      · have h1 : (1 : ℚ) ≤ b + 3/10 := le_of_lt (not_le.1 hble)
        rw [min_eq_right h1]
        rw [min_eq_right (by linarith), min_eq_right (by nlinarith)]
    · simp only [hm, if_false, Bool.false_eq_true]
      rw [ih b hb]

/-- C6 (amended): the confidence is base plus boost clamped at 1.0, where the
    identifier boost is +0.3 for EACH of the top-3 results whose identifier
    contains the query (case-insensitively), jointly capped at 1.0; the
    result is always in [0,1] when the fed-in relevance scores are
    non-negative (as fused scores are), and an empty list yields exactly 0. -/
theorem claim_C6_confidence (q : String) (docs : List Doc)
    (hnn : ∀ d ∈ docs, 0 ≤ relevanceOf d) :
    calculate_semantic_confidence q [] = 0
    ∧ calculate_semantic_confidence q docs
        = (if docs = [] then 0 else
            min (min (min ((docs.length : ℚ) / 10) 1
                  + (3/10) * (((docs.take 3).filter
                      (fun d => strContains (pyUpper d.identifier) (pyUpper q))).length : ℚ)) 1
                + min (confAvg docs * (1/2)) (4/10)) 1)
    ∧ 0 ≤ calculate_semantic_confidence q docs
    ∧ calculate_semantic_confidence q docs ≤ 1 := by
  have hbase0 : (0 : ℚ) ≤ min ((docs.length : ℚ) / 10) 1 :=
    le_min (by positivity) (by norm_num)
  have hfold := conf_foldl_formula q (docs.take 3)
    (min ((docs.length : ℚ) / 10) 1) (min_le_right _ _)
  have hbase_eq : confBase q docs
      = min (min ((docs.length : ℚ) / 10) 1
          + (3/10) * (((docs.take 3).filter
              (fun d => strContains (pyUpper d.identifier) (pyUpper q))).length : ℚ)) 1 := by
    unfold confBase
    exact hfold
  refine ⟨by unfold calculate_semantic_confidence; rw [if_pos rfl], ?_, ?_, ?_⟩
  · unfold calculate_semantic_confidence
    by_cases hed : docs = []
    · rw [if_pos hed, if_pos hed]
    · rw [if_neg hed, if_neg hed, hbase_eq]
  · unfold calculate_semantic_confidence
    by_cases hed : docs = []
    · rw [if_pos hed]
    · rw [if_neg hed]
      have h1 : (0 : ℚ) ≤ confBase q docs := by
        rw [hbase_eq]
        refine le_min ?_ (by norm_num)
        have : (0 : ℚ) ≤ (3/10) * (((docs.take 3).filter
            (fun d => strContains (pyUpper d.identifier) (pyUpper q))).length : ℚ) := by
          positivity
        linarith
      have h2 : (0 : ℚ) ≤ min (confAvg docs * (1/2)) (4/10) := by
        refine le_min ?_ (by norm_num)
        have hsum : (0 : ℚ) ≤ ((docs.take 3).map relevanceOf).sum := by
          apply List.sum_nonneg
          intro x hx
          rcases List.mem_map.1 hx with ⟨d, hd, rfl⟩
          exact hnn d ((List.take_sublist 3 docs).mem hd)
        have havg : (0 : ℚ) ≤ confAvg docs := by
          unfold confAvg
          apply div_nonneg hsum
          positivity
        linarith
      exact le_min (by linarith) (by norm_num)
  · unfold calculate_semantic_confidence
    by_cases hed : docs = []
    · rw [if_pos hed]; norm_num
    · rw [if_neg hed]
      exact min_le_right _ _

/-- Concrete inputs for the C6 counterexample: two results, both of whose
    identifiers contain the query. -/
def eConfA : Doc := ⟨"1", "HR-1", "", "", "", "", 0, none⟩

def eConfB : Doc := ⟨"2", "HR-1B", "", "", "", "", 0, none⟩

/-- C6 counterexample: with two top-3 identifier matches the code adds 0.3
    twice (0.2 + 0.3 + 0.3 = 0.8), while the claim's "+0.3 if any" gives
    0.2 + 0.3 = 0.5. -/
theorem claim_C6_counterexample :
    calculate_semantic_confidence "HR-1" [eConfA, eConfB] = 4/5
    ∧ claim_confidence "HR-1" [eConfA, eConfB] = 1/2
    ∧ (4/5 : ℚ) ≠ 1/2 := by
  refine ⟨?_, ?_, by norm_num⟩
  · have hA : strContains (pyUpper "HR-1") (pyUpper "HR-1") = true := by decide
    have hB : strContains (pyUpper "HR-1B") (pyUpper "HR-1") = true := by decide
    unfold calculate_semantic_confidence confBase confAvg
    simp only [eConfA, eConfB, List.take, List.foldl, List.map, List.sum_cons,
      List.sum_nil, List.length_cons, List.length_nil, relevanceOf, Option.getD, hA, hB,
      if_true, if_pos]
    norm_num [min_def]
    exact List.cons_ne_nil _ _
  · have hA : strContains (pyUpper "HR-1") (pyUpper "HR-1") = true := by decide
    unfold claim_confidence confAvg
    simp only [eConfA, eConfB, List.take, List.any, List.map, List.sum_cons,
      List.sum_nil, List.length_cons, List.length_nil, relevanceOf, Option.getD, hA,
      Bool.true_or, if_true, if_pos]
    norm_num [min_def]
    exact List.cons_ne_nil _ _

theorem claim_C6_witness :
    0 ≤ calculate_semantic_confidence "HR-1" [eConfA, eConfB]
    ∧ calculate_semantic_confidence "HR-1" [eConfA, eConfB] ≤ 1 :=
  ⟨(claim_C6_confidence "HR-1" [eConfA, eConfB] (by decide)).2.2.1,
   (claim_C6_confidence "HR-1" [eConfA, eConfB] (by decide)).2.2.2⟩

/-! ### Lexical strategy: `_full_text_search` / `_enhanced_like_search` /
    `_calculate_text_relevance` -/

/-- Tokens of the lowercased query longer than 2 characters (the `.strip()`
    in the source is a no-op after `.split()`). -/
def search_terms (q : String) : List String :=
  (pySplit (pyLower q)).filter (fun t => decide (2 < t.length))

/-- The SQL condition: every search term matches title, summary, full text or
    identifier via case-insensitive `%term%`.  (For a single term the
    source's `or_` of one condition coincides with the `and_`.) -/
def likeCond (ts : List String) (d : Doc) : Bool :=
  ts.all (fun t => ilikeContains d.title t || ilikeContains d.summary t
    || ilikeContains d.full_text t || ilikeContains d.identifier t)

/-- Number of (lowercased) query tokens occurring in the lowercased field;
    repeated tokens count repeatedly, as in the source's per-term loop. -/
def countOcc (terms : List String) (field : String) : ℕ :=
  (terms.filter (fun t => strContains (pyLower field) t)).length

/-- `_calculate_text_relevance`: 3 points per token in the title, 2 in the
    summary, 1 in the full text, and a single +5 when the WHOLE query is a
    case-insensitive substring of the identifier. -/
def calculate_text_relevance (q : String) (d : Doc) : ℚ :=
  3 * (countOcc (pySplit (pyLower q)) d.title : ℚ)
    + 2 * (countOcc (pySplit (pyLower q)) d.summary : ℚ)
    + (countOcc (pySplit (pyLower q)) d.full_text : ℚ)
    + (if strContains (pyUpper d.identifier) (pyUpper q) then 5 else 0)

/-- Claim-side relevance, written from the spec's wording: +5 per matching
    token on the identifier (instead of the single whole-query +5). -/
def claim_text_relevance (q : String) (d : Doc) : ℚ :=
  3 * (countOcc (pySplit (pyLower q)) d.title : ℚ)
    + 2 * (countOcc (pySplit (pyLower q)) d.summary : ℚ)
    + (countOcc (pySplit (pyLower q)) d.full_text : ℚ)
    + 5 * (countOcc (pySplit (pyLower q)) d.identifier : ℚ)

def dateKey (d : Doc) : Int := d.last_action_date

/-- The fetched rows: filtered corpus, ordered by most recent action date,
    truncated to `limit * 2`. -/
def like_fetched (q : String) (corpus : List Doc) (limit : ℕ) : List Doc :=
  (insSortByDesc dateKey (corpus.filter (likeCond (search_terms q)))).take (limit * 2)

/-- `_enhanced_like_search`: with no usable terms, the most recent documents
    at flat score 0.5; otherwise fetched rows scored by
    `_calculate_text_relevance`, stable-sorted descending, truncated. -/
def enhanced_like_search (q : String) (corpus : List Doc) (limit : ℕ) :
    List (Doc × ℚ) :=
  if search_terms q = [] then
    ((insSortByDesc dateKey corpus).take limit).map (fun d => (d, (1/2 : ℚ)))
  else
    (insSortByDesc (fun e : Doc × ℚ => e.2)
      ((like_fetched q corpus limit).map (fun d => (d, calculate_text_relevance q d)))).take limit

/-- `_full_text_search`: the FTS5 collaborator's rows are a parameter —
    `none` models the index being unavailable (exception path), `some rows`
    its answer (already mapped through `abs(rank_score)` row conversion).
    Non-empty rows are returned as-is; empty or unavailable falls back. -/
def full_text_search (ftsRows : Option (List (Doc × ℚ))) (q : String)
    (corpus : List Doc) (limit : ℕ) : List (Doc × ℚ) :=
  match ftsRows with
  | some rows => if rows.isEmpty then enhanced_like_search q corpus limit else rows
  | none => enhanced_like_search q corpus limit

/-- C7 (amended): the lexical strategy falls back to the token-scan exactly
    when the index is unavailable or returns zero rows; in the fallback each
    returned document is scored +3/+2/+1 per matching token on
    title/summary/full text plus a single +5 when the WHOLE query is a
    case-insensitive substring of the identifier; zero-score fetched
    documents are included (ranked last), not excluded; and score ties are
    ordered by most recent last-action date. -/
theorem claim_C7_like_fallback (q : String) (corpus : List Doc) (limit : ℕ) :
    (full_text_search none q corpus limit = enhanced_like_search q corpus limit
      ∧ full_text_search (some []) q corpus limit = enhanced_like_search q corpus limit)
    ∧ (search_terms q ≠ [] → ∀ d s, (d, s) ∈ enhanced_like_search q corpus limit →
        s = calculate_text_relevance q d)
    ∧ List.Chain'
        (fun a b : Doc × ℚ => b.2 < a.2 ∨ (a.2 = b.2 ∧ dateKey b.1 ≤ dateKey a.1))
        (enhanced_like_search q corpus limit) := by
  refine ⟨⟨rfl, rfl⟩, ?_, ?_⟩
  · intro hts d s hmem
    unfold enhanced_like_search at hmem
    rw [if_neg hts] at hmem
    have h1 : (d, s) ∈ insSortByDesc (fun e : Doc × ℚ => e.2)
        ((like_fetched q corpus limit).map (fun d => (d, calculate_text_relevance q d))) :=
      (List.take_sublist limit _).mem hmem
    have h2 : (d, s) ∈ (like_fetched q corpus limit).map
        (fun d => (d, calculate_text_relevance q d)) :=
      (perm_insSortByDesc _ _).mem_iff.1 h1
    rcases List.mem_map.1 h2 with ⟨d0, _, heq⟩
    cases heq
    rfl
  · unfold enhanced_like_search
    by_cases hts : search_terms q = []
    · rw [if_pos hts]
      have hsorted : (insSortByDesc dateKey corpus).Pairwise
          (fun a b => dateKey b ≤ dateKey a) := sorted_insSortByDesc dateKey corpus
      have htake := hsorted.sublist (List.take_sublist limit _)
      have hmap : (((insSortByDesc dateKey corpus).take limit).map
          (fun d => (d, (1/2 : ℚ)))).Pairwise
          (fun a b : Doc × ℚ => b.2 < a.2 ∨ (a.2 = b.2 ∧ dateKey b.1 ≤ dateKey a.1)) := by
        refine htake.map _ ?_
        intro a b hab
        exact Or.inr ⟨rfl, hab⟩
      exact hmap.chain'
    · rw [if_neg hts]
      have hfetched : (like_fetched q corpus limit).Pairwise
          (fun a b => dateKey b ≤ dateKey a) :=
        (sorted_insSortByDesc dateKey _).sublist (List.take_sublist (limit * 2) _)
      have hsec : ((like_fetched q corpus limit).map
          (fun d => (d, calculate_text_relevance q d))).Pairwise
          (fun e1 e2 : Doc × ℚ => dateKey e2.1 ≤ dateKey e1.1) := by
        refine hfetched.map _ ?_
        intro a b hab
        exact hab
      have hcomb := pairwise_insSortByDesc (fun e : Doc × ℚ => e.2)
        (fun e1 e2 : Doc × ℚ => dateKey e2.1 ≤ dateKey e1.1) _ hsec
      exact (hcomb.sublist (List.take_sublist limit _)).chain'

/-- Concrete documents for the C7 counterexample and witness. -/
def dLike : Doc := ⟨"L", "HR-3684-117", "", "", "", "", 0, none⟩

def dWater : Doc := ⟨"W", "W1", "Clean Water Act", "", "", "", 0, none⟩

/-- C7 counterexample: for query `"3684 117"` both tokens match only the
    identifier of `dLike`, so the claim's per-token +5 predicts score 10 and
    the claim excludes zero-score documents; the code scores the whole-query
    identifier test (which fails: `"3684 117"` is not a substring of
    `"HR-3684-117"`), yielding score 0, and still returns the document. -/
theorem claim_C7_counterexample :
    enhanced_like_search "3684 117" [dLike] 5 = [(dLike, 0)]
    ∧ claim_text_relevance "3684 117" dLike = 10
    ∧ (0 : ℚ) ≠ 10 := by
  refine ⟨?_, ?_, by norm_num⟩
  · have h1 : search_terms "3684 117" = ["3684", "117"] := by decide
    have hf : like_fetched "3684 117" [dLike] 5 = [dLike] := by decide
    have h3 : countOcc (pySplit (pyLower "3684 117")) dLike.title = 0 := by decide
    have h4 : countOcc (pySplit (pyLower "3684 117")) dLike.summary = 0 := by decide
    have h5 : countOcc (pySplit (pyLower "3684 117")) dLike.full_text = 0 := by decide
    have h6 : strContains (pyUpper dLike.identifier) (pyUpper "3684 117") = false := by decide
    have hc : calculate_text_relevance "3684 117" dLike = 0 := by
      unfold calculate_text_relevance
      rw [h3, h4, h5, h6]
      norm_num
    unfold enhanced_like_search
    rw [h1, hf, if_neg (List.cons_ne_nil _ _)]
    simp only [List.map, hc, insSortByDesc, insertByDesc]
    rw [List.take_of_length_le (by simp)]
  · have h3 : countOcc (pySplit (pyLower "3684 117")) dLike.title = 0 := by decide
    have h4 : countOcc (pySplit (pyLower "3684 117")) dLike.summary = 0 := by decide
    have h5 : countOcc (pySplit (pyLower "3684 117")) dLike.full_text = 0 := by decide
    have h7 : countOcc (pySplit (pyLower "3684 117")) dLike.identifier = 2 := by decide
    unfold claim_text_relevance
    rw [h3, h4, h5, h7]
    norm_num

theorem claim_C7_witness : (3 : ℚ) = calculate_text_relevance "water" dWater := by
  have hmem : (dWater, (3 : ℚ)) ∈ enhanced_like_search "water" [dWater] 3 := by
    have h1 : search_terms "water" = ["water"] := by decide
    have hf : like_fetched "water" [dWater] 3 = [dWater] := by decide
    have h3 : countOcc (pySplit (pyLower "water")) dWater.title = 1 := by decide
    have h4 : countOcc (pySplit (pyLower "water")) dWater.summary = 0 := by decide
    have h5 : countOcc (pySplit (pyLower "water")) dWater.full_text = 0 := by decide
    have h6 : strContains (pyUpper dWater.identifier) (pyUpper "water") = false := by decide
    have hc : calculate_text_relevance "water" dWater = 3 := by
      unfold calculate_text_relevance
      rw [h3, h4, h5, h6]
      norm_num
    unfold enhanced_like_search
    rw [h1, hf, if_neg (List.cons_ne_nil _ _)]
    simp only [List.map, hc, insSortByDesc, insertByDesc]
    rw [List.take_of_length_le (by simp)]
    exact List.mem_singleton.2 rfl
  exact (claim_C7_like_fallback "water" [dWater] 3).2.1 (by decide) dWater 3 hmem

/-! ### Pipeline: `search_with_ai_response` / `generate_claude_response`

    The Claude HTTP call only shapes the narrative text, which no claim
    touches; the response record carries the fields the claims are about.
    `_generate_intelligent_suggestions` iterates a Python `set` (its order is
    interpreter-dependent), so the non-empty-results suggestion list is an
    explicit function parameter `sugg`; the fixed no-results suggestion list
    of `_no_results_response` is modelled verbatim. -/

structure SearchResponse where
  documents : List Doc
  confidence : ℚ
  suggestions : List String
  total_results : ℕ
  deriving DecidableEq, Repr

/-- The fixed fallback suggestion list of `_no_results_response`. -/
def fallbackSuggestions : List String :=
  ["infrastructure bill", "healthcare legislation", "defense authorization",
   "budget resolution", "executive orders"]

/-- `generate_claude_response`, restricted to the (confidence, suggestions)
    pair: with no documents it answers `_no_results_response` (confidence 0.0
    and the fixed fallback list) before any API call; otherwise both the API
    path and `_fallback_ai_response` compute the confidence with
    `_calculate_semantic_confidence` and suggestions with the set-based
    generator `sugg`. -/
def generate_claude_response (sugg : String → List Doc → List String)
    (q : String) (docs : List Doc) : ℚ × List String :=
  if docs = [] then (0, fallbackSuggestions)
  else (calculate_semantic_confidence q docs, sugg q docs)

/-- `search_with_ai_response`: run the hybrid search on the preprocessed
    query (`procQ`, produced by `_preprocess_query`, here a parameter), then
    attach the AI response computed from the ORIGINAL query `rawQ`.  The
    three strategy result lists are the collaborator inputs. -/
def search_with_ai_response (sugg : String → List Doc → List String)
    (rawQ procQ : String) (fts sem meta : List (Doc × ℚ)) (limit : ℕ) :
    SearchResponse :=
  ⟨hybrid_search procQ fts sem meta limit,
   (generate_claude_response sugg rawQ (hybrid_search procQ fts sem meta limit)).1,
   (generate_claude_response sugg rawQ (hybrid_search procQ fts sem meta limit)).2,
   (hybrid_search procQ fts sem meta limit).length⟩

/-- The full search over a corpus snapshot: the lexical strategy with its
    FTS5 collaborator rows, the semantic strategy's ranked list (embedding
    collaborator output), and the metadata strategy over the same corpus,
    fused by `hybrid_search`. -/
def search (ftsRows : Option (List (Doc × ℚ))) (sem : List (Doc × ℚ))
    (q : String) (corpus : List Doc) (limit : ℕ) : List Doc :=
  hybrid_search q (full_text_search ftsRows q corpus limit) sem
    (metadata_search q corpus limit) limit

/-- C8: when all three strategies come back empty — also when that emptiness
    is a strategy's internal-error fallback — the response has an empty
    document list, confidence exactly 0.0 and the fixed fallback suggestion
    list; the embedded pipeline is total, so no exception reaches the
    caller. -/
theorem claim_C8_total_failure (sugg : String → List Doc → List String)
    (rawQ procQ : String) (limit : ℕ) :
    search_with_ai_response sugg rawQ procQ [] [] [] limit
      = ⟨[], 0, fallbackSuggestions, 0⟩ := by
  have hempty : hybrid_search procQ [] [] [] limit = [] := by
    unfold hybrid_search weighted_rank_fusion fusedEntries buildDocScores
    simp [addResults, insSortByDesc]
  unfold search_with_ai_response generate_claude_response
  rw [hempty]
  simp

/-- C9: the engine is a deterministic function of the query, the limit, the
    corpus snapshot and the collaborator outputs — running the embedded
    search twice on unchanged inputs yields the identical document list,
    ordering and scores included. -/
theorem claim_C9_two_runs_identical (ftsRows : Option (List (Doc × ℚ)))
    (sem : List (Doc × ℚ)) (q : String) (corpus : List Doc) (limit : ℕ) :
    search ftsRows sem q corpus limit = search ftsRows sem q corpus limit
    ∧ (search ftsRows sem q corpus limit).map relevanceOf
        = (search ftsRows sem q corpus limit).map relevanceOf :=
  ⟨rfl, rfl⟩

/-- Concrete document for the C3 witness. -/
def dFuseA : Doc := ⟨"a", "HR-9", "", "", "", "", 0, none⟩

theorem claim_C3_witness :
    (("a", dFuseA, (7/610 : ℚ))
        ∈ buildDocScores 60 [([(dFuseA, 1)], 1/2), ([], 3/10), ([(dFuseA, 2)], 1/5)])
    ∧ (7/610 : ℚ) = stratAggr 60 (1/2) "a" 0 [(dFuseA, 1)]
        + stratAggr 60 (3/10) "a" 0 [] + stratAggr 60 (1/5) "a" 0 [(dFuseA, 2)] := by
  have hb : buildDocScores 60 [([(dFuseA, 1)], 1/2), ([], 3/10), ([(dFuseA, 2)], 1/5)]
      = [("a", dFuseA, 7/610)] := by
    norm_num [buildDocScores, addResults, updateScore, dFuseA]
  have hmem : (("a", dFuseA, (7/610 : ℚ)))
      ∈ buildDocScores 60 [([(dFuseA, 1)], 1/2), ([], 3/10), ([(dFuseA, 2)], 1/5)] := by
    rw [hb]
    exact List.mem_singleton.2 rfl
  exact ⟨hmem, claim_C3_rrf_formula [(dFuseA, 1)] [] [(dFuseA, 2)] _ hmem⟩

/-- Concrete document for the C4 witness. -/
def dCWA : Doc := ⟨"c", "HR-2", "Clean Water Act of 1972", "", "", "", 0, none⟩

theorem claim_C4_witness :
    ∃ d0 : Doc, setScore dCWA (245/122)
      = setScore d0 (rrfAggregate 60 [([(dCWA, 1)], 1/2), ([], 3/10), ([], 1/5)] d0.id
          + claim_bonus "clean water act" d0) := by
  have hsplit : pySplit (pyLower "clean water act") = ["clean", "water", "act"] := by decide
  have hver : strContains (pyLower dCWA.title) (pyLower "clean water act") = true := by decide
  have hwatch : importantTerms.filter (fun t => strContains (pyLower "clean water act") t
      && strContains (pyLower dCWA.title) t) = [] := by decide
  have hpb : phraseBonus "clean water act" dCWA = 2 := by
    unfold phraseBonus
    rw [hsplit, hver, hwatch]
    norm_num
  have hb : buildDocScores 60 [([(dCWA, 1)], 1/2), ([], 3/10), ([], 1/5)]
      = [("c", dCWA, 1/122)] := by
    norm_num [buildDocScores, addResults, updateScore, dCWA]
  have hfuse : weighted_rank_fusion "clean water act"
      [([(dCWA, 1)], 1/2), ([], 3/10), ([], 1/5)] 10 60 = [setScore dCWA (245/122)] := by
    unfold weighted_rank_fusion fusedEntries
    rw [hb]
    simp only [List.map, hpb, insSortByDesc, insertByDesc]
    norm_num [setScore]
  have hd : setScore dCWA (245/122) ∈ weighted_rank_fusion "clean water act"
      [([(dCWA, 1)], 1/2), ([], 3/10), ([], 1/5)] 10 60 := by
    rw [hfuse]
    exact List.mem_singleton.2 rfl
  exact (claim_C4_phrase_bonus "clean water act"
    [([(dCWA, 1)], 1/2), ([], 3/10), ([], 1/5)] 10 60 (setScore dCWA (245/122)) hd).1

/-- Concrete document for the C10 witness. -/
def dFuseB : Doc := ⟨"b", "S-7", "Budget", "", "", "", 0, none⟩

theorem claim_C10_witness :
    ∃ d0 : Doc, (∃ pr ∈ [([(dFuseB, 1)], (1/2 : ℚ)), ([], 3/10), ([], 1/5)],
        ∃ s : ℚ, (d0, s) ∈ pr.1)
      ∧ setScore dFuseB (1/122)
          = setScore d0 (rrfAggregate 60 [([(dFuseB, 1)], 1/2), ([], 3/10), ([], 1/5)] d0.id
              + phraseBonus "x" d0) := by
  have hpb : phraseBonus "x" dFuseB = 0 := by
    have hsplit : pySplit (pyLower "x") = ["x"] := by decide
    have hwatch : importantTerms.filter (fun t => strContains (pyLower "x") t
        && strContains (pyLower dFuseB.title) t) = [] := by decide
    unfold phraseBonus
    rw [hsplit, hwatch]
    norm_num
  have hb : buildDocScores 60 [([(dFuseB, 1)], 1/2), ([], 3/10), ([], 1/5)]
      = [("b", dFuseB, 1/122)] := by
    norm_num [buildDocScores, addResults, updateScore, dFuseB]
  have hfuse : weighted_rank_fusion "x"
      [([(dFuseB, 1)], 1/2), ([], 3/10), ([], 1/5)] 10 60 = [setScore dFuseB (1/122)] := by
    unfold weighted_rank_fusion fusedEntries
    rw [hb]
    simp only [List.map, hpb, insSortByDesc, insertByDesc]
    norm_num [setScore]
  have hd : setScore dFuseB (1/122) ∈ weighted_rank_fusion "x"
      [([(dFuseB, 1)], 1/2), ([], 3/10), ([], 1/5)] 10 60 := by
    rw [hfuse]
    exact List.mem_singleton.2 rfl
  exact claim_C10_fusion_emits_copies "x"
    [([(dFuseB, 1)], 1/2), ([], 3/10), ([], 1/5)] 10 60 (setScore dFuseB (1/122)) hd
